import Mathlib

/-!
Verification of the mindy fan-out/aggregation core (a multi-index proxy for
Pilosa). The Go source is shallowly embedded: the external engine (schema
endpoint, query endpoint) is an oracle record of functions, machine integers
are Nat, fallible Go returns become Except, and the semaphore-gated
concurrency is modelled by an explicit labelled transition system. Partition
tasks additionally return the ordered trace of their limiter/network events so
that release-ordering properties can be stated.
-/

namespace Mindy

/-- Row specifies a single Pilosa row (`Row` in mindy.go): numeric id plus
frame name. -/
structure Row where
  id : Nat
  frame : String
deriving DecidableEq

/-- Request mirrors `mindy.Request`: indexes to query, include rows, exclude
rows, and the conjunction token. -/
structure Request where
  indexes : List String
  includes : List Row
  excludes : List Row
  conjunction : String
deriving DecidableEq

/-- PQL bitmap query expression tree, as built through go-pilosa
(`frame.Bitmap`, `index.Intersect`, `index.Union`, `index.Difference`). -/
inductive PQLQuery where
  | bitmap (frame : String) (id : Nat)
  | intersect (args : List PQLQuery)
  | union (args : List PQLQuery)
  | difference (args : List PQLQuery)

/-- A schema maps each index name to the list of frames it holds. -/
abbrev Schema := List (String × List String)

/-- `schema.Index(idx)`: look an index up in the schema, `none` if absent. -/
def findIndex (s : Schema) (idx : String) : Option (List String) :=
  match s.find? (fun p => p.fst == idx) with
  | some p => some p.snd
  | none => none

/-- The include/exclude resolution loops of `buildQuery`/`queryIndex`: for
each row, `index.Frame(row.Frame)` must resolve, and the loop appends
`frame.Bitmap(row.ID)`; the first unresolvable frame aborts with the
`getting frame %s from index %s` error. -/
def resolveRows (index : List String) (idx : String) : List Row → Except String (List PQLQuery)
  | [] => Except.ok []
  | row :: rest =>
    if row.frame ∈ index then
      match resolveRows index idx rest with
      | Except.error e => Except.error e
      | Except.ok qs => Except.ok (PQLQuery.bitmap row.frame row.id :: qs)
    else
      Except.error ("getting frame " ++ row.frame ++ " from index " ++ idx ++ ": frame not found")

/-- `buildQuery` (part_000; `queryIndex` in mindy.go inlines the identical
statements): resolve the index, resolve includes then excludes, combine the
includes according to the conjunction switch, and wrap in a Difference whose
first argument is the conjunction query when excludes is non-empty. -/
def buildQuery (schema : Schema) (idx : String) (r : Request) : Except String PQLQuery :=
  match findIndex schema idx with
  | none => Except.error ("getting index " ++ idx ++ " from schema: index not found")
  | some index =>
    match resolveRows index idx r.includes with
    | Except.error e => Except.error e
    | Except.ok includes =>
      match resolveRows index idx r.excludes with
      | Except.error e => Except.error e
      | Except.ok excludes =>
        match (if r.conjunction = "and" then Except.ok (PQLQuery.intersect includes)
               else if r.conjunction = "or" then Except.ok (PQLQuery.union includes)
               else Except.error ("invalid conjunction: " ++ r.conjunction) :
                 Except String PQLQuery) with
        | Except.error e => Except.error e
        | Except.ok qry =>
          if excludes.length > 0 then
            Except.ok (PQLQuery.difference (qry :: excludes))
          else
            Except.ok qry

/-- The external Pilosa engine as an oracle: the schema endpoint and the two
query entry points (`client.Query(qry)` and `client.Query(qry, Slices(s))`).
A query response is its ResultList, each entry reduced to its Bitmap.Bits. -/
structure Engine where
  schema : Except String Schema
  query : PQLQuery → Except String (List (List Nat))
  querySlice : PQLQuery → Nat → Except String (List (List Nat))

/-- Observable events of a partition task: limiter operations plus the
external calls and the result-count validation step. -/
inductive Event where
  | acquire
  | schemaCall
  | queryCall
  | validate
  | release
deriving DecidableEq

/-- `Handler.queryIndex` of mindy.go: Acquire the semaphore with a deferred
Release (so Release is the last event on every path), fetch the schema, build
the query (inlined `buildQuery` statements), run it, then check that the
ResultList has exactly one entry and return its Bitmap.Bits. The second
component is the event trace of the execution. -/
def queryIndex (eng : Engine) (idx : String) (r : Request) :
    Except String (List Nat) × List Event :=
  match eng.schema with
  | Except.error e =>
    (Except.error ("getting schema: " ++ e), [Event.acquire, Event.schemaCall, Event.release])
  | Except.ok schema =>
    match buildQuery schema idx r with
    | Except.error e => (Except.error e, [Event.acquire, Event.schemaCall, Event.release])
    | Except.ok qry =>
      match eng.query qry with
      | Except.error e =>
        (Except.error ("querying index " ++ idx ++ ": " ++ e),
         [Event.acquire, Event.schemaCall, Event.queryCall, Event.release])
      | Except.ok resultList =>
        match resultList with
        | [bits] =>
          (Except.ok bits,
           [Event.acquire, Event.schemaCall, Event.queryCall, Event.validate, Event.release])
        | _ =>
          (Except.error ("expected 1 result but got " ++ toString resultList.length),
           [Event.acquire, Event.schemaCall, Event.queryCall, Event.validate, Event.release])

/-- `Handler.sliceQuery` of part_000: Acquire, run the query against one
slice, Release immediately after the call returns, and only then validate the
result count and forward the bits. `idx` stands for `qry.Index().Name()`. -/
def sliceQuery (eng : Engine) (idx : String) (qry : PQLQuery) (slice : Nat) :
    Except String (List Nat) × List Event :=
  match eng.querySlice qry slice with
  | Except.error e =>
    (Except.error ("querying index " ++ idx ++ ": " ++ e),
     [Event.acquire, Event.queryCall, Event.release])
  | Except.ok resultList =>
    match resultList with
    | [bits] =>
      (Except.ok bits, [Event.acquire, Event.queryCall, Event.release, Event.validate])
    | _ =>
      (Except.error ("expected 1 result but got " ++ toString resultList.length),
       [Event.acquire, Event.queryCall, Event.release, Event.validate])

/-- The Results accumulator (`Results.Bits`): an association from index name
to its column list, with at most one entry per key. -/
abbrev Results := List (String × List Nat)

/-- `Results.setIndex`: Go map assignment `r.Bits[idx] = bits` — overwrite the
entry for the key when present, insert it otherwise. -/
def setIndex : Results → String → List Nat → Results
  | [], idx, bits => [(idx, bits)]
  | p :: rest, idx, bits =>
    if p.fst = idx then (idx, bits) :: rest else p :: setIndex rest idx bits

/-- The errgroup loop of `Handler.Query` in mindy.go: run `queryIndex` for
each requested index, abort with the task's error on the first failure
(`eg.Wait` surfaces it and Query returns nil), otherwise store each result
with `setIndex`. -/
def queryLoop (eng : Engine) (r : Request) : List String → Results → Except String Results
  | [], acc => Except.ok acc
  | i :: rest, acc =>
    match (queryIndex eng i r).fst with
    | Except.error e => Except.error e
    | Except.ok bits => queryLoop eng r rest (setIndex acc i bits)

/-- `Handler.Query` of mindy.go: start from an empty Bits map and fan out over
`r.Indexes`. -/
def Query (eng : Engine) (r : Request) : Except String Results :=
  queryLoop eng r r.indexes []

/-- One include row resolves to one `frame.Bitmap(row.ID)` leaf. -/
def leafOf (row : Row) : PQLQuery := PQLQuery.bitmap row.frame row.id

/-- The Difference step of `buildQuery`: wrap the conjunction query and the
exclude leaves when there are any excludes, otherwise leave it unchanged. -/
def wrapExcludes (q : PQLQuery) (excs : List PQLQuery) : PQLQuery :=
  if excs.length > 0 then PQLQuery.difference (q :: excs) else q

/-- The conjunction switch of `buildQuery` on a recognized token. -/
def combineConj (c : String) (qs : List PQLQuery) : PQLQuery :=
  if c = "and" then PQLQuery.intersect qs else PQLQuery.union qs

/-!
The semaphore (`make(chan struct{}, n)` with `Acquire` sending and `Release`
receiving) and the per-request fan-out are modelled as a labelled transition
system over the phases of the spawned tasks. A buffered channel of capacity
`cap` accepts a send only while it holds fewer than `cap` items, so `Acquire`
is enabled exactly when `chan < cap`.
-/

/-- Phase of one spawned task: before its Acquire, between Acquire and
Release (the region holding the limiter slot and issuing external calls), or
after its Release. -/
inductive Phase where
  | idle
  | holding
  | done
deriving DecidableEq

/-- Global state of one request's fan-out: the semaphore capacity, the number
of items currently buffered in the semaphore channel, and every task's
phase. -/
structure SemSystem where
  cap : Nat
  chan : Nat
  tasks : List Phase
deriving DecidableEq

/-- Interleaving steps: an idle task may Acquire only while the channel has
room (a send on a full buffered channel blocks); a holding task may Release,
freeing its slot. -/
inductive SemStep : SemSystem → SemSystem → Prop where
  | acquire (s : SemSystem) (i : Nat) (h : s.tasks.get? i = some Phase.idle)
      (hcap : s.chan < s.cap) :
      SemStep s ⟨s.cap, s.chan + 1, s.tasks.set i Phase.holding⟩
  | release (s : SemSystem) (i : Nat) (h : s.tasks.get? i = some Phase.holding) :
      SemStep s ⟨s.cap, s.chan - 1, s.tasks.set i Phase.done⟩

/-- Initial state of a request naming `n` partitions under a limiter of
capacity `cap`: the channel is empty and every task is before its Acquire. -/
def initSystem (cap n : Nat) : SemSystem :=
  ⟨cap, 0, List.replicate n Phase.idle⟩

/-- States reachable by interleaving the tasks' Acquire/Release steps. -/
inductive Reachable (cap n : Nat) : SemSystem → Prop where
  | init : Reachable cap n (initSystem cap n)
  | step {s s' : SemSystem} : Reachable cap n s → SemStep s s' → Reachable cap n s'

/-! Concrete fixtures used by witnesses and counterexamples. -/

/-- A one-index schema with frames f1 and f2. -/
def s0 : Schema := [("p1", ["f1", "f2"])]

/-- A healthy engine over `s0` whose query endpoints return one result with
bits 1 and 2. -/
def eng0 : Engine :=
  ⟨Except.ok s0, fun _ => Except.ok [[1, 2]], fun _ _ => Except.ok [[1, 2]]⟩

/-- An engine whose every endpoint fails. -/
def engFail : Engine :=
  ⟨Except.error "boom", fun _ => Except.error "boom", fun _ _ => Except.error "boom"⟩

/-- A well-formed AND request over `s0` with one exclude. -/
def req1 : Request := ⟨["p1"], [⟨1, "f1"⟩, ⟨2, "f2"⟩], [⟨3, "f1"⟩], "and"⟩

/-- A request carrying an unrecognized conjunction token. -/
def reqXor : Request := ⟨["p1"], [⟨0, "f1"⟩], [], "xor"⟩

/-- A request naming the same partition three times. -/
def reqDup : Request := ⟨["p1", "p1", "p1"], [⟨1, "f1"⟩], [], "or"⟩

/-! Helper lemmas about the query builder. -/

/-- A successful resolution loop yields exactly one `Bitmap` leaf per row, in
row order. -/
theorem resolveRows_ok_map (index : List String) (idx : String) :
    ∀ (rows : List Row) (qs : List PQLQuery),
      resolveRows index idx rows = Except.ok qs → qs = rows.map leafOf := by
  intro rows
  induction rows with
  | nil =>
    intro qs h
    simp only [resolveRows] at h
    cases h
    rfl
  | cons row rest ih =>
    intro qs h
    simp only [resolveRows] at h
    by_cases hf : row.frame ∈ index
    · rw [if_pos hf] at h
      cases hrec : resolveRows index idx rest with
      | error e => rw [hrec] at h; simp at h
      | ok qs' =>
        rw [hrec] at h
        cases h
        simp [List.map, leafOf, ih qs' hrec]
    · rw [if_neg hf] at h
      simp at h

/-- Characterization of `buildQuery` on a recognized conjunction: the include
leaves are combined by the conjunction switch and then wrapped by the
Difference step. -/
theorem buildQuery_char (schema : Schema) (idx : String) (r : Request)
    (index : List String) (incs excs : List PQLQuery)
    (hidx : findIndex schema idx = some index)
    (hinc : resolveRows index idx r.includes = Except.ok incs)
    (hexc : resolveRows index idx r.excludes = Except.ok excs)
    (hconj : r.conjunction = "and" ∨ r.conjunction = "or") :
    buildQuery schema idx r =
      Except.ok (wrapExcludes (combineConj r.conjunction incs) excs) := by
  rcases hconj with hc | hc <;>
      simp [buildQuery, hidx, hinc, hexc, hc, combineConj, wrapExcludes] <;>
    split <;> rfl

/-- `buildQuery` on an unrecognized conjunction aborts with the
`invalid conjunction` error, provided resolution succeeded. -/
theorem buildQuery_invalid_conj (schema : Schema) (idx : String) (r : Request)
    (index : List String) (incs excs : List PQLQuery)
    (hidx : findIndex schema idx = some index)
    (hinc : resolveRows index idx r.includes = Except.ok incs)
    (hexc : resolveRows index idx r.excludes = Except.ok excs)
    (hand : r.conjunction ≠ "and") (hor : r.conjunction ≠ "or") :
    buildQuery schema idx r = Except.error ("invalid conjunction: " ++ r.conjunction) := by
  simp [buildQuery, hidx, hinc, hexc, hand, hor]

/-! Helper lemmas about the Results accumulator and the fan-out loop. -/

/-- Keys after a `setIndex`: the written key joins the existing ones. -/
theorem mem_keys_setIndex (acc : Results) (i : String) (b : List Nat) (n : String) :
    n ∈ (setIndex acc i b).map Prod.fst ↔ n ∈ acc.map Prod.fst ∨ n = i := by
  induction acc with
  | nil => simp [setIndex]
  | cons p rest ih =>
    by_cases hp : p.fst = i
    · simp [setIndex, hp]
      tauto
    · simp [setIndex, hp, ih]
      tauto

/-- `setIndex` keeps the keys pairwise distinct. -/
theorem nodup_keys_setIndex (acc : Results) (i : String) (b : List Nat)
    (h : (acc.map Prod.fst).Nodup) : ((setIndex acc i b).map Prod.fst).Nodup := by
  induction acc with
  | nil => simp [setIndex]
  | cons p rest ih =>
    simp only [List.map_cons, List.nodup_cons] at h
    by_cases hp : p.fst = i
    · simp only [setIndex, if_pos hp, List.map_cons, List.nodup_cons]
      exact ⟨hp ▸ h.1, h.2⟩
    · simp only [setIndex, if_neg hp, List.map_cons, List.nodup_cons]
      refine ⟨?_, ih h.2⟩
      rw [mem_keys_setIndex]
      push_neg
      exact ⟨h.1, hp⟩

/-- Every entry after a `setIndex` is either the written pair or an entry
that was already present. -/
theorem mem_setIndex (acc : Results) (i : String) (b : List Nat) (n : String) (bits : List Nat)
    (h : (n, bits) ∈ setIndex acc i b) : (n = i ∧ bits = b) ∨ (n, bits) ∈ acc := by
  induction acc with
  | nil =>
    simp [setIndex] at h
    exact Or.inl h
  | cons p rest ih =>
    by_cases hp : p.fst = i
    · simp only [setIndex, if_pos hp, List.mem_cons] at h
      rcases h with h | h
      · exact Or.inl (by simpa using h)
      · exact Or.inr (List.mem_cons_of_mem _ h)
    · simp only [setIndex, if_neg hp, List.mem_cons] at h
      rcases h with h | h
      · exact Or.inr (by simp [h])
      · rcases ih h with h' | h'
        · exact Or.inl h'
        · exact Or.inr (List.mem_cons_of_mem _ h')

/-- If some index in the remaining list has a failing task, the loop returns
one of the failing tasks' errors (and hence no Results value). -/
theorem queryLoop_error (eng : Engine) (r : Request) :
    ∀ (idxs : List String) (acc : Results),
      (∃ i, i ∈ idxs ∧ ∃ e, (queryIndex eng i r).fst = Except.error e) →
      ∃ e, queryLoop eng r idxs acc = Except.error e ∧
        ∃ j, j ∈ idxs ∧ (queryIndex eng j r).fst = Except.error e := by
  intro idxs
  induction idxs with
  | nil =>
    intro acc h
    rcases h with ⟨i, hi, _⟩
    simp at hi
  | cons i rest ih =>
    intro acc h
    cases hq : (queryIndex eng i r).fst with
    | error e =>
      refine ⟨e, ?_, i, List.mem_cons_self i rest, hq⟩
      simp [queryLoop, hq]
    | ok bits =>
      rcases h with ⟨i', hi', e', he'⟩
      rcases List.mem_cons.mp hi' with hcase | hcase
      · subst hcase
        rw [hq] at he'
        simp at he'
      · rcases ih (setIndex acc i bits) ⟨i', hcase, e', he'⟩ with ⟨e, hloop, j, hj, hje⟩
        exact ⟨e, by simp [queryLoop, hq, hloop], j, List.mem_cons_of_mem _ hj, hje⟩

/-- Invariants of a successful fan-out loop: keys stay pairwise distinct, the
final keys are the starting keys plus the processed indexes, and every stored
entry is its task's successful result. -/
theorem queryLoop_ok (eng : Engine) (r : Request) :
    ∀ (idxs : List String) (acc res : Results),
      queryLoop eng r idxs acc = Except.ok res →
      ((acc.map Prod.fst).Nodup → (res.map Prod.fst).Nodup) ∧
      (∀ n, n ∈ res.map Prod.fst ↔ n ∈ acc.map Prod.fst ∨ n ∈ idxs) ∧
      ((∀ n bits, (n, bits) ∈ acc → (queryIndex eng n r).fst = Except.ok bits) →
        ∀ n bits, (n, bits) ∈ res → (queryIndex eng n r).fst = Except.ok bits) := by
  intro idxs
  induction idxs with
  | nil =>
    intro acc res h
    simp only [queryLoop, Except.ok.injEq] at h
    subst h
    exact ⟨fun hn => hn, fun n => by simp, fun hp => hp⟩
  | cons i rest ih =>
    intro acc res h
    cases hq : (queryIndex eng i r).fst with
    | error e => simp [queryLoop, hq] at h
    | ok bits =>
      simp only [queryLoop, hq] at h
      obtain ⟨h1, h2, h3⟩ := ih (setIndex acc i bits) res h
      refine ⟨fun hn => h1 (nodup_keys_setIndex _ _ _ hn), fun n => ?_, fun hp => ?_⟩
      · rw [h2 n, mem_keys_setIndex]
        simp only [List.mem_cons]
        tauto
      · refine h3 ?_
        intro n nb hmem
        rcases mem_setIndex _ _ _ _ _ hmem with ⟨hn, hbits⟩ | hmem'
        · subst hn
          subst hbits
          exact hq
        · exact hp n nb hmem'

/-! Helper lemmas about the semaphore transition system. -/

/-- Setting an idle slot to holding increases the holding count by one. -/
theorem count_set_acquire : ∀ (l : List Phase) (i : Nat), l.get? i = some Phase.idle →
    (l.set i Phase.holding).count Phase.holding = l.count Phase.holding + 1 := by
  intro l
  induction l with
  | nil =>
    intro i h
    simp at h
  | cons a t ih =>
    intro i h
    cases i with
    | zero =>
      simp only [List.get?_cons_zero, Option.some.injEq] at h
      subst h
      simp [List.set, List.count_cons]
    | succ j =>
      have hrec := ih j h
      by_cases ha : a = Phase.holding <;>
        simp [List.set, List.count_cons, ha, hrec]

/-- Setting a holding slot to done decreases the holding count by one. -/
theorem count_set_release : ∀ (l : List Phase) (i : Nat), l.get? i = some Phase.holding →
    (l.set i Phase.done).count Phase.holding + 1 = l.count Phase.holding := by
  intro l
  induction l with
  | nil =>
    intro i h
    simp at h
  | cons a t ih =>
    intro i h
    cases i with
    | zero =>
      simp only [List.get?_cons_zero, Option.some.injEq] at h
      subst h
      simp [List.set, List.count_cons]
    | succ j =>
      have hrec := ih j h
      by_cases ha : a = Phase.holding <;>
        simp [List.set, List.count_cons, ha] <;> omega

/-- One step preserves the channel/holding-count correspondence and the
capacity bound. -/
theorem SemStep_inv (s s' : SemSystem) (hs : SemStep s s')
    (he : s.chan = s.tasks.count Phase.holding) (hle : s.chan ≤ s.cap) :
    s'.cap = s.cap ∧ s'.chan = s'.tasks.count Phase.holding ∧ s'.chan ≤ s'.cap := by
  cases hs with
  | acquire i hi hcap =>
    have hcount := count_set_acquire s.tasks i hi
    refine ⟨rfl, ?_, ?_⟩ <;> simp [hcount] <;> omega
  | release i hi =>
    have hcount := count_set_release s.tasks i hi
    refine ⟨rfl, ?_, ?_⟩ <;> simp <;> omega

/-- Inductive invariant of the fan-out system: the channel holds exactly one
item per task between Acquire and Release, and never more than capacity. -/
theorem reachable_inv (cap n : Nat) (s : SemSystem) (h : Reachable cap n s) :
    s.cap = cap ∧ s.chan = s.tasks.count Phase.holding ∧ s.chan ≤ s.cap := by
  induction h with
  | init =>
    refine ⟨rfl, ?_, by simp [initSystem]⟩
    simp [initSystem, List.count_replicate]
  | step hr hs ih =>
    obtain ⟨hc, he, hle⟩ := ih
    obtain ⟨hc', he', hle'⟩ := SemStep_inv _ _ hs he hle
    exact ⟨hc' ▸ hc, he', hle'⟩

/-- `queryIndex` has exactly three trace shapes: failure before the query
call, failure at the query call, and reaching validation; Release is last on
each (the deferred Release runs at function exit). -/
theorem queryIndex_trace_cases (eng : Engine) (idx : String) (r : Request) :
    (queryIndex eng idx r).snd = [Event.acquire, Event.schemaCall, Event.release] ∨
    (queryIndex eng idx r).snd =
      [Event.acquire, Event.schemaCall, Event.queryCall, Event.release] ∨
    (queryIndex eng idx r).snd =
      [Event.acquire, Event.schemaCall, Event.queryCall, Event.validate, Event.release] := by
  cases hs : eng.schema with
  | error e => exact Or.inl (by simp [queryIndex, hs])
  | ok schema =>
    cases hb : buildQuery schema idx r with
    | error e => exact Or.inl (by simp [queryIndex, hs, hb])
    | ok qry =>
      cases hq : eng.query qry with
      | error e => exact Or.inr (Or.inl (by simp [queryIndex, hs, hb, hq]))
      | ok rl =>
        cases rl with
        | nil => exact Or.inr (Or.inr (by simp [queryIndex, hs, hb, hq]))
        | cons b t =>
          cases t with
          | nil => exact Or.inr (Or.inr (by simp [queryIndex, hs, hb, hq]))
          | cons c u => exact Or.inr (Or.inr (by simp [queryIndex, hs, hb, hq]))

/-- `sliceQuery` has exactly two trace shapes, and Release comes right after
the query call on both. -/
theorem sliceQuery_trace_cases (eng : Engine) (idx : String) (qry : PQLQuery) (slice : Nat) :
    (sliceQuery eng idx qry slice).snd = [Event.acquire, Event.queryCall, Event.release] ∨
    (sliceQuery eng idx qry slice).snd =
      [Event.acquire, Event.queryCall, Event.release, Event.validate] := by
  cases hq : eng.querySlice qry slice with
  | error e => exact Or.inl (by simp [sliceQuery, hq])
  | ok rl =>
    cases rl with
    | nil => exact Or.inr (by simp [sliceQuery, hq])
    | cons b t =>
      cases t with
      | nil => exact Or.inr (by simp [sliceQuery, hq])
      | cons c u => exact Or.inr (by simp [sliceQuery, hq])

/-! The claims. -/

/-- C1: for every request with a recognized conjunction token, the
per-partition expression combines the include leaves — one `Bitmap` leaf per
include row, in includes order — with Intersect when the conjunction is
`and` and with Union when it is `or`. -/
theorem conj_combines_includes (schema : Schema) (idx : String) (r : Request)
    (index : List String) (incs excs : List PQLQuery)
    (hidx : findIndex schema idx = some index)
    (hinc : resolveRows index idx r.includes = Except.ok incs)
    (hexc : resolveRows index idx r.excludes = Except.ok excs) :
    (r.conjunction = "and" →
      buildQuery schema idx r =
        Except.ok (wrapExcludes (PQLQuery.intersect (r.includes.map leafOf)) excs)) ∧
    (r.conjunction = "or" →
      buildQuery schema idx r =
        Except.ok (wrapExcludes (PQLQuery.union (r.includes.map leafOf)) excs)) := by
  have hmap := resolveRows_ok_map index idx r.includes incs hinc
  subst hmap
  constructor
  · intro hc
    rw [buildQuery_char schema idx r index _ excs hidx hinc hexc (Or.inl hc)]
    simp [combineConj, hc]
  · intro hc
    rw [buildQuery_char schema idx r index _ excs hidx hinc hexc (Or.inr hc)]
    simp [combineConj, hc]

/-- C1 witness: concrete AND request over the one-index schema. -/
theorem conj_combines_includes_witness :
    buildQuery s0 "p1" req1 =
      Except.ok (wrapExcludes (PQLQuery.intersect (req1.includes.map leafOf))
        [leafOf ⟨3, "f1"⟩]) :=
  (conj_combines_includes s0 "p1" req1 ["f1", "f2"]
    [leafOf ⟨1, "f1"⟩, leafOf ⟨2, "f2"⟩] [leafOf ⟨3, "f1"⟩] rfl rfl rfl).1 rfl

/-- C2: with a non-empty excludes list the final expression is a Difference
whose arguments are exactly the combined includes followed by one leaf per
exclude row in excludes order; with an empty excludes list no Difference
wrapper is added. -/
theorem difference_ordering (schema : Schema) (idx : String) (r : Request)
    (index : List String) (incs excs : List PQLQuery)
    (hidx : findIndex schema idx = some index)
    (hinc : resolveRows index idx r.includes = Except.ok incs)
    (hexc : resolveRows index idx r.excludes = Except.ok excs)
    (hconj : r.conjunction = "and" ∨ r.conjunction = "or") :
    (r.excludes ≠ [] →
      buildQuery schema idx r =
        Except.ok (PQLQuery.difference
          (combineConj r.conjunction incs :: r.excludes.map leafOf))) ∧
    (r.excludes = [] →
      buildQuery schema idx r = Except.ok (combineConj r.conjunction incs)) := by
  have hmap := resolveRows_ok_map index idx r.excludes excs hexc
  subst hmap
  have hchar := buildQuery_char schema idx r index incs _ hidx hinc hexc hconj
  constructor
  · intro hne
    rw [hchar]
    simp [wrapExcludes, List.length_pos, hne]
  · intro he
    rw [hchar]
    simp [wrapExcludes, he]

/-- C2 witness: the concrete AND request with one exclude produces the
Difference with the combined includes first. -/
theorem difference_ordering_witness :
    buildQuery s0 "p1" req1 =
      Except.ok (PQLQuery.difference
        (combineConj "and" [leafOf ⟨1, "f1"⟩, leafOf ⟨2, "f2"⟩] :: req1.excludes.map leafOf)) :=
  (difference_ordering s0 "p1" req1 ["f1", "f2"]
    [leafOf ⟨1, "f1"⟩, leafOf ⟨2, "f2"⟩] [leafOf ⟨3, "f1"⟩] rfl rfl rfl
    (Or.inl rfl)).1 (by decide)

/-- C3: whenever any partition task fails, the coordinator returns no Results
value but one of the failing tasks' errors; partial sibling results are never
surfaced. -/
theorem query_failfast_no_partials (eng : Engine) (r : Request)
    (h : ∃ i, i ∈ r.indexes ∧ ∃ e, (queryIndex eng i r).fst = Except.error e) :
    ∃ e, Query eng r = Except.error e ∧
      ∃ j, j ∈ r.indexes ∧ (queryIndex eng j r).fst = Except.error e :=
  queryLoop_error eng r r.indexes [] h

/-- C3 witness: against the always-failing engine, Query surfaces the
schema-resolution error and no aggregate. -/
theorem query_failfast_witness :
    ∃ e, Query engFail req1 = Except.error e ∧
      ∃ j, j ∈ req1.indexes ∧ (queryIndex engFail j req1).fst = Except.error e :=
  query_failfast_no_partials engFail req1
    ⟨"p1", by decide, "getting schema: boom", rfl⟩

/-- C4: once the external query call has returned successfully, the task
fails with the malformed-response error exactly when the ResultList length
differs from 1, and with length exactly 1 it returns that single result's
bits unchanged. -/
theorem single_result_validation (eng : Engine) (schema : Schema) (idx : String)
    (r : Request) (qry : PQLQuery) (rl : List (List Nat))
    (hs : eng.schema = Except.ok schema)
    (hb : buildQuery schema idx r = Except.ok qry)
    (hq : eng.query qry = Except.ok rl) :
    ((queryIndex eng idx r).fst =
        Except.error ("expected 1 result but got " ++ toString rl.length) ↔ rl.length ≠ 1) ∧
    (∀ bits, rl = [bits] → (queryIndex eng idx r).fst = Except.ok bits) := by
  cases rl with
  | nil =>
    refine ⟨⟨fun _ => by simp, fun _ => by simp [queryIndex, hs, hb, hq]⟩, ?_⟩
    intro bits hbits
    simp at hbits
  | cons b t =>
    cases t with
    | nil =>
      refine ⟨⟨fun herr => ?_, fun hlen => by simp at hlen⟩, ?_⟩
      · have hok : (queryIndex eng idx r).fst = Except.ok b := by
          simp [queryIndex, hs, hb, hq]
        rw [hok] at herr
        simp at herr
      · intro bits hbits
        simp only [List.cons.injEq, and_true] at hbits
        subst hbits
        simp [queryIndex, hs, hb, hq]
    | cons c u =>
      refine ⟨⟨fun _ => by simp, fun _ => by simp [queryIndex, hs, hb, hq]⟩, ?_⟩
      intro bits hbits
      simp at hbits

/-- C4 witness: the healthy engine returns a single result and the task
returns its bits. -/
theorem single_result_validation_witness :
    ((queryIndex eng0 "p1" req1).fst =
        Except.error ("expected 1 result but got " ++
          toString ([[1, 2]] : List (List Nat)).length) ↔
      ([[1, 2]] : List (List Nat)).length ≠ 1) ∧
    (∀ bits, ([[1, 2]] : List (List Nat)) = [bits] →
      (queryIndex eng0 "p1" req1).fst = Except.ok bits) :=
  single_result_validation eng0 s0 "p1" req1
    (PQLQuery.difference
      [PQLQuery.intersect [PQLQuery.bitmap "f1" 1, PQLQuery.bitmap "f2" 2],
       PQLQuery.bitmap "f1" 3])
    [[1, 2]] rfl rfl rfl

/-- C5 counterexample: on conjunction token `xor` against partition p1 the
task's error is exactly `invalid conjunction: xor`, and the partition name p1
does not occur anywhere in that message — the claim that the error names the
partition is false. -/
theorem invalid_conj_cex :
    (queryIndex eng0 "p1" reqXor).fst = Except.error "invalid conjunction: xor" ∧
    ¬ "p1".data <:+: "invalid conjunction: xor".data :=
  ⟨rfl, by decide⟩

/-- C5 (amended): with schema and frame resolution succeeding, a request
whose conjunction token is neither `and` nor `or` fails before submitting any
query — no query-call event occurs — with an invalid-conjunction error that
names the bad token (but not the partition). -/
theorem invalid_conj_names_token (eng : Engine) (schema : Schema) (idx : String)
    (r : Request) (index : List String) (incs excs : List PQLQuery)
    (hs : eng.schema = Except.ok schema)
    (hidx : findIndex schema idx = some index)
    (hinc : resolveRows index idx r.includes = Except.ok incs)
    (hexc : resolveRows index idx r.excludes = Except.ok excs)
    (hand : r.conjunction ≠ "and") (hor : r.conjunction ≠ "or") :
    (queryIndex eng idx r).fst = Except.error ("invalid conjunction: " ++ r.conjunction) ∧
    Event.queryCall ∉ (queryIndex eng idx r).snd := by
  have hb := buildQuery_invalid_conj schema idx r index incs excs hidx hinc hexc hand hor
  constructor
  · simp [queryIndex, hs, hb]
  · simp [queryIndex, hs, hb]

/-- C5 witness: the xor request against the healthy engine. -/
theorem invalid_conj_names_token_witness :
    (queryIndex eng0 "p1" reqXor).fst = Except.error ("invalid conjunction: " ++ "xor") ∧
    Event.queryCall ∉ (queryIndex eng0 "p1" reqXor).snd :=
  invalid_conj_names_token eng0 s0 "p1" reqXor ["f1", "f2"] [leafOf ⟨0, "f1"⟩] []
    rfl rfl rfl rfl (by decide) (by decide)

/-- C6 counterexample: in the mindy.go `queryIndex` task the deferred Release
fires at function exit, so on a successful execution the trace places the
validation event before the release event — the release is not performed
before result-set validation as claimed. -/
theorem release_order_cex :
    (queryIndex eng0 "p1" req1).snd =
      [Event.acquire, Event.schemaCall, Event.queryCall, Event.validate, Event.release] ∧
    ¬ (queryIndex eng0 "p1" req1).snd.findIdx (fun e => e == Event.release) <
        (queryIndex eng0 "p1" req1).snd.findIdx (fun e => e == Event.validate) :=
  ⟨rfl, by decide⟩

/-- C6 (amended): in the `sliceQuery` variant the limiter slot is released
immediately after the external query call returns, on success and failure
alike, before any validation; in the `queryIndex` variant the slot is
released only at task exit, after validation and extraction (release is the
last event and occurs nowhere earlier). -/
theorem release_order_by_variant (eng : Engine) (idx : String) (qry : PQLQuery)
    (slice : Nat) (r : Request) :
    (∃ rest, (sliceQuery eng idx qry slice).snd =
      Event.acquire :: Event.queryCall :: Event.release :: rest) ∧
    (∃ pre, (queryIndex eng idx r).snd = pre ++ [Event.release] ∧
      Event.release ∉ pre) := by
  constructor
  · rcases sliceQuery_trace_cases eng idx qry slice with h | h
    · exact ⟨[], h⟩
    · exact ⟨[Event.validate], h⟩
  · rcases queryIndex_trace_cases eng idx r with h | h | h
    · exact ⟨[Event.acquire, Event.schemaCall], by rw [h]; exact ⟨rfl, by decide⟩⟩
    · exact ⟨[Event.acquire, Event.schemaCall, Event.queryCall],
        by rw [h]; exact ⟨rfl, by decide⟩⟩
    · exact ⟨[Event.acquire, Event.schemaCall, Event.queryCall, Event.validate],
        by rw [h]; exact ⟨rfl, by decide⟩⟩

/-- C7: in every reachable interleaving of a request's fan-out, the number of
tasks past Acquire and not yet past Release never exceeds the limiter
capacity. -/
theorem concurrency_bound (cap n : Nat) (s : SemSystem) (h : Reachable cap n s) :
    s.tasks.count Phase.holding ≤ cap := by
  obtain ⟨hc, he, hle⟩ := reachable_inv cap n s h
  omega

/-- C7 witness: capacity 2 with 5 partition tasks after one Acquire step. -/
theorem concurrency_bound_witness :
    ((initSystem 2 5).tasks.set 0 Phase.holding).count Phase.holding ≤ 2 :=
  concurrency_bound 2 5 _
    (Reachable.step Reachable.init
      (SemStep.acquire (initSystem 2 5) 0 (by decide) (by decide)))

/-- C8: a request that completes without error yields an aggregate with
pairwise-distinct keys, exactly the distinct requested partition names, each
entry being its own task's successful result (so a duplicated partition name
still yields one entry under that key). -/
theorem aggregate_one_entry_per_index (eng : Engine) (r : Request) (res : Results)
    (h : Query eng r = Except.ok res) :
    (res.map Prod.fst).Nodup ∧
    (∀ n, n ∈ res.map Prod.fst ↔ n ∈ r.indexes) ∧
    (∀ n bits, (n, bits) ∈ res → (queryIndex eng n r).fst = Except.ok bits) := by
  obtain ⟨h1, h2, h3⟩ := queryLoop_ok eng r r.indexes [] res h
  refine ⟨h1 (by simp), fun n => ?_, h3 (by simp)⟩
  rw [h2 n]
  simp

/-- C8 witness: the request naming p1 three times aggregates to the single
entry for p1. -/
theorem aggregate_one_entry_witness :
    ((([("p1", [1, 2])] : Results).map Prod.fst).Nodup ∧
      (∀ n, n ∈ (([("p1", [1, 2])] : Results).map Prod.fst) ↔ n ∈ reqDup.indexes) ∧
      (∀ n bits, (n, bits) ∈ ([("p1", [1, 2])] : Results) →
        (queryIndex eng0 n reqDup).fst = Except.ok bits)) :=
  aggregate_one_entry_per_index eng0 reqDup [("p1", [1, 2])] rfl

/-- C9: with an empty partitions list, Query succeeds with an empty (but
present) bits map for every engine — even an engine whose every call fails —
and every includes, excludes, and conjunction token, so no external call is
made and the conjunction is never validated. -/
theorem empty_indexes_ok (eng : Engine) (includes excludes : List Row) (conj : String) :
    Query eng ⟨[], includes, excludes, conj⟩ = Except.ok [] := rfl

/-- C10: every partition task's trace contains exactly one Acquire and
exactly one Release, on every return path of both task variants, so a
failing task never permanently reduces the limiter's capacity. -/
theorem slot_released_every_path (eng : Engine) (idx : String) (qry : PQLQuery)
    (slice : Nat) (r : Request) :
    ((queryIndex eng idx r).snd.count Event.acquire = 1 ∧
      (queryIndex eng idx r).snd.count Event.release = 1) ∧
    ((sliceQuery eng idx qry slice).snd.count Event.acquire = 1 ∧
      (sliceQuery eng idx qry slice).snd.count Event.release = 1) := by
  constructor
  · rcases queryIndex_trace_cases eng idx r with h | h | h <;>
      rw [h] <;> exact ⟨by decide, by decide⟩
  · rcases sliceQuery_trace_cases eng idx qry slice with h | h <;>
      rw [h] <;> exact ⟨by decide, by decide⟩

end Mindy
